import Mathlib

/-!
Verification of the dynamic-sampling rebalancing engine specification.

The engine's implementation is not present in this snapshot of the
repository (only its test suite is), so every definition below is a
shallow embedding reconstructed from the specification, cross-checked
against the concrete scenarios asserted by the test suite
(tests/sentry/dynamic_sampling/test_tasks.py).  Machine floats are
modelled by exact rationals, so "within floating-point tolerance"
becomes exact equality over ℚ.
-/

namespace DynamicSampling

/-- Ordering of keyed volume records by observed volume (ascending). -/
def volLE {α : Type} (a b : α × ℚ) : Prop := a.2 ≤ b.2

instance {α : Type} : DecidableRel (@volLE α) :=
  fun a b => inferInstanceAs (Decidable (a.2 ≤ b.2))

instance {α : Type} : IsTotal (α × ℚ) (@volLE α) :=
  ⟨fun a b => le_total a.2 b.2⟩

instance {α : Type} : IsTrans (α × ℚ) (@volLE α) :=
  ⟨fun _ _ _ h h2 => le_trans h h2⟩

/-- Sum of the observed volumes of a list of keyed volume records. -/
def volumeSum {α : Type} (l : List (α × ℚ)) : ℚ := (l.map Prod.snd).sum

/-- Modelled from the spec: the inverse-proportional budget allocator
shared by ProjectPrioritizer (§4.1) and TransactionPrioritizer (§4.2),
whose implementation is not under src/.  The caller passes records
sorted by ascending volume together with the remaining event budget;
each record is offered an equal share of the remaining budget, a record
whose whole volume fits inside its share is clamped to rate 1 (the
leftover share rolls over to the others), and otherwise the record's
rate is its share divided by its volume.  Each record is returned paired
with its assigned sample rate. -/
def allocate {α : Type} : List (α × ℚ) → ℚ → List ((α × ℚ) × ℚ)
  | [], _ => []
  | p :: rest, budget =>
    if p.2 ≤ budget / ((p :: rest).length : ℚ) then
      (p, 1) :: allocate rest (budget - p.2)
    else
      (p, (budget / ((p :: rest).length : ℚ)) / p.2) ::
        allocate rest (budget - budget / ((p :: rest).length : ℚ))

/-- Number of kept events implied by an allocation: Σ vᵢ · rᵢ. -/
def consumedSum {α : Type} (out : List ((α × ℚ) × ℚ)) : ℚ :=
  (out.map (fun e => e.1.2 * e.2)).sum

/-- Modelled from the spec: ProjectPrioritizer (§4.1), whose
implementation is not under src/.  Given the projects of one
organization as (project id, observed volume) pairs and the target
blended rate B, it sorts the projects by ascending volume and allocates
the organization's event budget B · Σ vᵢ inverse-proportionally to
volume, clamping rates to 1 and redistributing the remainder.  Projects
below the minimum-volume floor are excluded before this computation, so
the model takes only the surviving (positive-volume) projects. -/
def ProjectPrioritizer.run (projects : List (Nat × ℚ)) (B : ℚ) :
    List ((Nat × ℚ) × ℚ) :=
  allocate (projects.insertionSort volLE) (B * volumeSum projects)

/-- Clamp a rational into the closed interval [lo, hi]. -/
def clampQ (x lo hi : ℚ) : ℚ := max lo (min x hi)

/-- Modelled from the spec: RecalibrationEngine (§4.3), whose
implementation is not under src/.  From the observed keep/drop counts it
computes the achieved rate A = keep/(keep+drop) (A = B when no data was
observed), the correction factor F = B/A clamped to [fmin, fmax]
(division by a zero achieved rate yields 0 in ℚ and is therefore also
clamped into range rather than raised), and the compounded factor
Fprev · F. -/
def RecalibrationEngine.adjustedFactor
    (Fprev B keep dropped fmin fmax : ℚ) : ℚ :=
  Fprev * clampQ (B / (if keep + dropped = 0 then B else keep / (keep + dropped)))
    fmin fmax

/-- Modelled from the spec: one RecalibrationEngine run for one
organization (§4.3).  The previously persisted factor is read from the
cache (1 when absent), compounded with the fresh correction factor, and
the result is persisted — unless it equals 1, in which case the key is
deleted (`none`) rather than stored. -/
def RecalibrationEngine.run (prev : Option ℚ)
    (B keep dropped fmin fmax : ℚ) : Option ℚ :=
  if RecalibrationEngine.adjustedFactor (prev.getD 1) B keep dropped fmin fmax = 1
  then none
  else some (RecalibrationEngine.adjustedFactor (prev.getD 1) B keep dropped fmin fmax)

/-- A boolean predicate tree over event attributes (§3).  Only the
always-true condition (an empty conjunction) occurs in this core. -/
inductive Condition where
  | and (inner : List Condition)

/-- Tagged union of an absolute keep-probability ("sampleRate") and a
multiplier on an upstream rate ("factor") (§3). -/
structure SamplingValue where
  type : String
  value : ℚ

/-- A compiled sampling rule (§3).  List position is significant:
the downstream evaluation engine applies rules first-match-wins. -/
structure Rule where
  id : Nat
  type : String
  condition : Condition
  samplingValue : SamplingValue

/-- Whether a rule carries a factor-type sampling value. -/
def Rule.isFactor (r : Rule) : Bool := r.samplingValue.type == "factor"

/-- The recalibration rule with its fixed reserved id 1004: a
factor-type trace rule with the always-true condition. -/
def factorRule (f : ℚ) : Rule :=
  ⟨1004, "trace", Condition.and [], ⟨"factor", f⟩⟩

/-- Modelled from the spec: RecalibrationBias (§4.4 item 3), whose
implementation is not under src/.  It reads the persisted recalibration
factor of the project's organization (1 when the cache key is absent)
and contributes exactly one factor rule with id 1004 when that factor is
non-default, and nothing at all otherwise.  The base_sample_rate supplied
by the caller does not enter the computation. -/
def RecalibrationBias.generateRules (persisted : Option ℚ)
    (base_sample_rate : ℚ) : List Rule :=
  if persisted.getD 1 = 1 then [] else [factorRule (persisted.getD 1)]

/-- Modelled from the spec: RuleCompiler (§4.4), whose implementation is
not under src/.  The compiled list is: pre-existing static/manual bias
rules passed through unchanged, then the sampleRate rules from the
prioritizers, then the optional recalibration factor rule appended
last. -/
def RuleCompiler.compile (staticRules rateRules : List Rule)
    (persisted : Option ℚ) (base_sample_rate : ℚ) : List Rule :=
  staticRules ++ rateRules ++ RecalibrationBias.generateRules persisted base_sample_rate

/-- The three volume classes of a project's transaction names (§4.2). -/
structure TransactionClasses where
  large : List (String × ℚ)
  small : List (String × ℚ)
  implicit : List (String × ℚ)

/-- Modelled from the spec: the classification step of
TransactionPrioritizer (§4.2), whose implementation is not under src/.
Transaction names are sorted by ascending observed volume; the bottom
numSmall become explicit-small, the top numLarge of the remainder become
explicit-large, and everything else is implicit. -/
def TransactionPrioritizer.classify (txs : List (String × ℚ))
    (numLarge numSmall : Nat) : TransactionClasses :=
  ⟨((txs.insertionSort volLE).drop numSmall).reverse.take numLarge,
   (txs.insertionSort volLE).take numSmall,
   ((txs.insertionSort volLE).drop numSmall).reverse.drop numLarge⟩

/-- The per-(organization, project) rate table persisted in the
RebalanceCache (§3): explicit per-name rates plus one implicit rate for
every unlisted transaction name. -/
structure TransactionRateTable where
  explicitRates : List (String × ℚ)
  implicitRate : ℚ

/-- Rate assigned to a named transaction by an allocation, with a
fallback for names the allocation does not cover. -/
def rateOf (alloc : List ((String × ℚ) × ℚ)) (name : String)
    (fallback : ℚ) : ℚ :=
  match alloc.find? (fun e => e.1.1 == name) with
  | some e => e.2
  | none => fallback

/-- Modelled from the spec: the rate-table construction of
TransactionPrioritizer (§4.2), whose implementation is not under src/.
A project with zero total transaction volume is skipped (no table is
persisted).  Otherwise the project's budget B · Σ vᵢ is allocated
inverse-proportionally over all transaction names, the explicit
(small and large) names are persisted with their individual rates, and
the implicit names share one rate computed from the budget remaining
after the explicit transactions are accounted for, clamped into [0,1]
per the §3 invariant. -/
def TransactionPrioritizer.buildTable (txs : List (String × ℚ))
    (numLarge numSmall : Nat) (B : ℚ) : Option TransactionRateTable :=
  if volumeSum txs = 0 then none
  else
    some ⟨((TransactionPrioritizer.classify txs numLarge numSmall).small ++
             (TransactionPrioritizer.classify txs numLarge numSmall).large).map
            (fun t =>
              (t.1, rateOf (allocate (txs.insertionSort volLE) (B * volumeSum txs)) t.1 B)),
          if volumeSum (TransactionPrioritizer.classify txs numLarge numSmall).implicit = 0
          then B
          else clampQ ((B * volumeSum txs -
              (((TransactionPrioritizer.classify txs numLarge numSmall).small ++
                 (TransactionPrioritizer.classify txs numLarge numSmall).large).map
                (fun t =>
                  t.2 * rateOf (allocate (txs.insertionSort volLE) (B * volumeSum txs)) t.1 B)).sum) /
              volumeSum (TransactionPrioritizer.classify txs numLarge numSmall).implicit) 0 1⟩

/-- Modelled from the spec: the query side of TransactionPrioritizer
(§4.2), whose implementation is not under src/.  The RebalanceCache is
modelled as a lookup from (org id, project id) to an optional persisted
table.  On a cache miss the caller receives an empty explicit mapping
and default_rate as the implicit/global rate; no error is raised. -/
def get_transactions_resampling_rates
    (cache : Nat → Nat → Option TransactionRateTable)
    (org_id proj_id : Nat) (default_rate : ℚ) : List (String × ℚ) × ℚ :=
  match cache org_id proj_id with
  | none => ([], default_rate)
  | some tbl => (tbl.explicitRates, tbl.implicitRate)

/-- Rate the downstream consumer uses for one transaction name: its
explicit rate when listed, the implicit/global rate otherwise. -/
def lookupRate (rates : List (String × ℚ)) (name : String)
    (fallback : ℚ) : ℚ :=
  match rates.find? (fun e => e.1 == name) with
  | some e => e.2
  | none => fallback

end DynamicSampling

namespace DynamicSampling

theorem volumeSum_cons {α : Type} (p : α × ℚ) (l : List (α × ℚ)) :
    volumeSum (p :: l) = p.2 + volumeSum l := by
  simp [volumeSum]

theorem consumedSum_cons {α : Type} (e : (α × ℚ) × ℚ)
    (out : List ((α × ℚ) × ℚ)) :
    consumedSum (e :: out) = e.1.2 * e.2 + consumedSum out := by
  simp [consumedSum]

theorem length_mul_le_volumeSum {α : Type} (c : ℚ) :
    ∀ (l : List (α × ℚ)), (∀ q ∈ l, c ≤ q.2) →
      (l.length : ℚ) * c ≤ volumeSum l := by
  intro l
  induction l with
  | nil => intro _; simp [volumeSum]
  | cons q t ih =>
    intro h
    have hq : c ≤ q.2 := h q (List.mem_cons_self q t)
    have ht := ih (fun x hx => h x (List.mem_cons_of_mem q hx))
    rw [volumeSum_cons, List.length_cons]
    push_cast
    nlinarith

theorem volumeSum_const {α : Type} (v : ℚ) :
    ∀ (l : List (α × ℚ)), (∀ p ∈ l, p.2 = v) →
      volumeSum l = (l.length : ℚ) * v := by
  intro l
  induction l with
  | nil => intro _; simp [volumeSum]
  | cons q t ih =>
    intro h
    rw [volumeSum_cons, ih (fun x hx => h x (List.mem_cons_of_mem q hx)),
      h q (List.mem_cons_self q t), List.length_cons]
    push_cast
    ring

/-- The allocator hands out exactly the budget it was given, provided
the records are sorted by ascending volume, volumes are positive, and
the budget lies between 0 and the total volume: a record that is clamped
to rate 1 consumes exactly its own volume and its leftover share rolls
over to the records after it. -/
theorem allocate_consumes {α : Type} :
    ∀ (l : List (α × ℚ)) (budget : ℚ),
      l.Sorted volLE → (∀ p ∈ l, 0 < p.2) →
      0 ≤ budget → budget ≤ volumeSum l →
      consumedSum (allocate l budget) = budget := by
  intro l
  induction l with
  | nil =>
    intro budget _ _ h0 h1
    simp [volumeSum] at h1
    simp [allocate, consumedSum]
    linarith
  | cons p rest ih =>
    intro budget hs hv h0 h1
    have hp : 0 < p.2 := hv p (List.mem_cons_self p rest)
    have hvrest : ∀ q ∈ rest, 0 < q.2 := fun q hq => hv q (List.mem_cons_of_mem p hq)
    have hhead : ∀ q ∈ rest, p.2 ≤ q.2 := fun q hq => List.rel_of_sorted_cons hs q hq
    have hn1 : (1:ℚ) ≤ ((p :: rest).length : ℚ) := by
      have : 1 ≤ (p :: rest).length := List.length_pos.2 (by simp)
      exact_mod_cast this
    have hnpos : (0:ℚ) < ((p :: rest).length : ℚ) := lt_of_lt_of_le one_pos hn1
    have hshare0 : 0 ≤ budget / ((p :: rest).length : ℚ) := div_nonneg h0 hnpos.le
    have hshare_le : budget / ((p :: rest).length : ℚ) ≤ budget := div_le_self h0 hn1
    have hvs := volumeSum_cons p rest
    have hrv : ((rest.length : ℚ)) * p.2 ≤ volumeSum rest :=
      length_mul_le_volumeSum p.2 rest hhead
    have hlen : ((p :: rest).length : ℚ) = (rest.length : ℚ) + 1 := by
      rw [List.length_cons]; push_cast; ring
    simp only [allocate]
    split_ifs with hcond
    · have h0' : 0 ≤ budget - p.2 := by
        have := le_trans hcond hshare_le
        linarith
      have h1' : budget - p.2 ≤ volumeSum rest := by rw [hvs] at h1; linarith
      rw [consumedSum_cons, ih (budget - p.2) hs.of_cons hvrest h0' h1']
      ring
    · push_neg at hcond
      have hmul : budget / ((p :: rest).length : ℚ) * ((p :: rest).length : ℚ) = budget :=
        div_mul_cancel₀ budget hnpos.ne'
      have h0' : 0 ≤ budget - budget / ((p :: rest).length : ℚ) := by linarith
      have h1' : budget - budget / ((p :: rest).length : ℚ) ≤ volumeSum rest := by
        rw [hvs] at h1
        nlinarith [mul_nonneg (by linarith : (0:ℚ) ≤ ((p :: rest).length : ℚ) - 1)
          (by linarith : (0:ℚ) ≤ p.2 - budget / ((p :: rest).length : ℚ))]
      rw [consumedSum_cons, ih _ hs.of_cons hvrest h0' h1']
      rw [mul_comm, div_mul_cancel₀ _ hp.ne']
      ring

/-- Every rate the allocator assigns lies in [0,1]: rates are clamped
at 1 and never negative, for any nonnegative budget and positive
volumes (no sortedness needed). -/
theorem allocate_rates_bounded {α : Type} :
    ∀ (l : List (α × ℚ)) (budget : ℚ),
      (∀ p ∈ l, 0 < p.2) → 0 ≤ budget →
      ∀ pr ∈ allocate l budget, 0 ≤ pr.2 ∧ pr.2 ≤ 1 := by
  intro l
  induction l with
  | nil => intro budget _ _ pr hpr; simp [allocate] at hpr
  | cons p rest ih =>
    intro budget hv h0 pr hpr
    have hp : 0 < p.2 := hv p (List.mem_cons_self p rest)
    have hvrest : ∀ q ∈ rest, 0 < q.2 := fun q hq => hv q (List.mem_cons_of_mem p hq)
    have hn1 : (1:ℚ) ≤ ((p :: rest).length : ℚ) := by
      have : 1 ≤ (p :: rest).length := List.length_pos.2 (by simp)
      exact_mod_cast this
    have hnpos : (0:ℚ) < ((p :: rest).length : ℚ) := lt_of_lt_of_le one_pos hn1
    have hshare0 : 0 ≤ budget / ((p :: rest).length : ℚ) := div_nonneg h0 hnpos.le
    have hshare_le : budget / ((p :: rest).length : ℚ) ≤ budget := div_le_self h0 hn1
    simp only [allocate] at hpr
    split_ifs at hpr with hcond
    · rcases List.mem_cons.1 hpr with h | h
      · rw [h]; exact ⟨zero_le_one, le_refl 1⟩
      · exact ih (budget - p.2) hvrest (by linarith [le_trans hcond hshare_le]) pr h
    · push_neg at hcond
      rcases List.mem_cons.1 hpr with h | h
      · rw [h]
        constructor
        · exact div_nonneg hshare0 hp.le
        · exact (div_le_one hp).2 hcond.le
      · exact ih _ hvrest (by linarith) pr h

/-- On equal volumes every record receives exactly the rate B, where
B · (n · v) is the budget for n records of volume v each. -/
theorem allocate_uniform {α : Type} (v B : ℚ) (hv : 0 < v) (hB1 : B ≤ 1) :
    ∀ (l : List (α × ℚ)), (∀ p ∈ l, p.2 = v) →
      ∀ pr ∈ allocate l (B * ((l.length : ℚ) * v)), pr.2 = B := by
  intro l
  induction l with
  | nil => intro _ pr hpr; simp [allocate] at hpr
  | cons p rest ih =>
    intro hall pr hpr
    have hp2 : p.2 = v := hall p (List.mem_cons_self p rest)
    have hallrest : ∀ q ∈ rest, q.2 = v := fun q hq => hall q (List.mem_cons_of_mem p hq)
    have hn1 : (1:ℚ) ≤ ((p :: rest).length : ℚ) := by
      have : 1 ≤ (p :: rest).length := List.length_pos.2 (by simp)
      exact_mod_cast this
    have hnpos : (0:ℚ) < ((p :: rest).length : ℚ) := lt_of_lt_of_le one_pos hn1
    have hlen : ((p :: rest).length : ℚ) = (rest.length : ℚ) + 1 := by
      rw [List.length_cons]; push_cast; ring
    have hshare : B * (((p :: rest).length : ℚ) * v) / ((p :: rest).length : ℚ) = B * v := by
      field_simp
      ring
    simp only [allocate, hshare] at hpr
    split_ifs at hpr with hcond
    · rw [hp2] at hcond
      have hB : B = 1 := le_antisymm hB1 ((le_mul_iff_one_le_left hv).1 hcond)
      rcases List.mem_cons.1 hpr with h | h
      · rw [h, hB]
      · have harg : B * (((p :: rest).length : ℚ) * v) - p.2 =
            B * ((rest.length : ℚ) * v) := by
          rw [hp2, hB, hlen]; ring
        rw [harg] at h
        exact ih hallrest pr h
    · rcases List.mem_cons.1 hpr with h | h
      · rw [h]
        simp only [hp2]
        exact mul_div_cancel_right₀ B hv.ne'
      · have harg : B * (((p :: rest).length : ℚ) * v) - B * v =
            B * ((rest.length : ℚ) * v) := by
          rw [hlen]; ring
        rw [harg] at h
        exact ih hallrest pr h

/-- C1: for every organization and every assignment of observed volumes
to its projects (all positive, i.e. above the minimum-volume floor) and
every blended rate B in [0,1], the rates computed by ProjectPrioritizer
satisfy Σ vᵢ·rᵢ = B · Σ vᵢ exactly over ℚ: the volume-weighted mean of
the assigned rates equals the target blended rate, including when some
rates are clamped to 1 and the leftover budget is redistributed among
the remaining projects. -/
theorem projectPrioritizer_budget_conserving (projects : List (Nat × ℚ)) (B : ℚ)
    (hv : ∀ p ∈ projects, 0 < p.2) (hB0 : 0 ≤ B) (hB1 : B ≤ 1) :
    consumedSum (ProjectPrioritizer.run projects B) = B * volumeSum projects := by
  have hperm : List.Perm (projects.insertionSort volLE) projects :=
    List.perm_insertionSort volLE projects
  have hvs : volumeSum (projects.insertionSort volLE) = volumeSum projects := by
    unfold volumeSum
    exact (hperm.map Prod.snd).sum_eq
  have hsorted : (projects.insertionSort volLE).Sorted volLE :=
    List.sorted_insertionSort volLE projects
  have hv2 : ∀ p ∈ projects.insertionSort volLE, 0 < p.2 :=
    fun p hp => hv p (hperm.subset hp)
  have hS0 : 0 ≤ volumeSum projects := by
    unfold volumeSum
    apply List.sum_nonneg
    intro x hx
    obtain ⟨p, hp, he⟩ := List.mem_map.1 hx
    exact he ▸ (hv p hp).le
  exact allocate_consumes _ _ hsorted hv2 (mul_nonneg hB0 hS0)
    (by rw [hvs]; exact mul_le_of_le_one_left hS0 hB1)

/-- C1 witness: the four-project organization of the repository's test,
volumes 9, 7, 3, 1 and B = 1/4, satisfies the hypotheses, and the
volume-weighted rate sum equals (1/4) · 20. -/
theorem projectPrioritizer_budget_conserving_witness :
    (∀ p ∈ [((1:Nat), (9:ℚ)), (2, 7), (3, 3), (4, 1)], 0 < p.2) ∧
    (0:ℚ) ≤ 1/4 ∧ (1/4 : ℚ) ≤ 1 ∧
    consumedSum (ProjectPrioritizer.run [(1, 9), (2, 7), (3, 3), (4, 1)] (1/4)) =
      (1/4) * volumeSum [((1:Nat), (9:ℚ)), (2, 7), (3, 3), (4, 1)] :=
  ⟨by intro p hp; fin_cases hp <;> norm_num, by norm_num, by norm_num,
    projectPrioritizer_budget_conserving [(1, 9), (2, 7), (3, 3), (4, 1)] (1/4)
      (by intro p hp; fin_cases hp <;> norm_num) (by norm_num) (by norm_num)⟩

/-- C9: an organization whose projects all have the same observed
volume — in particular one with a single project — has every project
assigned exactly the blended rate B by ProjectPrioritizer. -/
theorem projectPrioritizer_uniform (projects : List (Nat × ℚ)) (v B : ℚ)
    (hv : 0 < v) (hall : ∀ p ∈ projects, p.2 = v) (hB1 : B ≤ 1) :
    ∀ pr ∈ ProjectPrioritizer.run projects B, pr.2 = B := by
  intro pr hpr
  have hperm : List.Perm (projects.insertionSort volLE) projects :=
    List.perm_insertionSort volLE projects
  have hall2 : ∀ q ∈ projects.insertionSort volLE, q.2 = v :=
    fun q hq => hall q (hperm.subset hq)
  have hlen : ((projects.insertionSort volLE).length : ℚ) = (projects.length : ℚ) := by
    exact_mod_cast congrArg Nat.cast hperm.length_eq
  have hbudget : B * volumeSum projects =
      B * (((projects.insertionSort volLE).length : ℚ) * v) := by
    rw [volumeSum_const v projects hall, hlen]
  rw [ProjectPrioritizer.run, hbudget] at hpr
  exact allocate_uniform v B hv hB1 _ hall2 pr hpr

/-- C9 witness: a single project of volume 5 at B = 1/4 receives
exactly the rate 1/4. -/
theorem projectPrioritizer_uniform_witness :
    (0:ℚ) < 5 ∧ (∀ p ∈ [((1:Nat), (5:ℚ))], p.2 = 5) ∧ (1/4 : ℚ) ≤ 1 ∧
    (∀ pr ∈ ProjectPrioritizer.run [(1, 5)] (1/4), pr.2 = 1/4) :=
  ⟨by norm_num, by intro p hp; fin_cases hp <;> norm_num, by norm_num,
    projectPrioritizer_uniform [(1, 5)] 5 (1/4) (by norm_num)
      (by intro p hp; fin_cases hp <;> norm_num) (by norm_num)⟩

/-- C3: for an organization of four projects with observed volumes
9 : 7 : 3 : 1 and blended rate B = 1/4, ProjectPrioritizer assigns the
rates 4/27 = 0.1481…, 4/21 = 0.1905…, 4/9 = 0.4444… and 1 respectively;
the lowest-volume project is clamped to 1 and the remaining budget is
renormalized over the others (processed in ascending volume order). -/
theorem projectPrioritizer_nine_seven_three_one :
    ProjectPrioritizer.run [(1, 9), (2, 7), (3, 3), (4, 1)] (1/4) =
      [((4, 1), 1), ((3, 3), 4/9), ((2, 7), 4/21), ((1, 9), 4/27)] := by
  norm_num [ProjectPrioritizer.run, volumeSum, allocate, List.insertionSort,
    List.orderedInsert, volLE]

/-- C2: RecalibrationEngine on three organizations observed at achieved
rates 10%, 20%, 40% against target B = 1/5 (keep/drop counts as stored
by the repository's test), with factor bounds [1/10, 10]: the first run
from an empty cache persists 2, nothing, 1/2 respectively; a second run
on identical observed data compounds the persisted factors to 4,
nothing, 1/4.  The formula A = keep/(keep+drop), F = clamp(B/A), and
Fnew = Fprev · F is definitional in the model
(RecalibrationEngine.adjustedFactor / RecalibrationEngine.run). -/
theorem recalibration_scenario :
    RecalibrationEngine.run none (1/5) 10 90 (1/10) 10 = some 2 ∧
    RecalibrationEngine.run none (1/5) 20 80 (1/10) 10 = none ∧
    RecalibrationEngine.run none (1/5) 40 60 (1/10) 10 = some (1/2) ∧
    RecalibrationEngine.run (some 2) (1/5) 10 90 (1/10) 10 = some 4 ∧
    RecalibrationEngine.run none (1/5) 20 80 (1/10) 10 = none ∧
    RecalibrationEngine.run (some (1/2)) (1/5) 40 60 (1/10) 10 = some (1/4) := by
  norm_num [RecalibrationEngine.run, RecalibrationEngine.adjustedFactor, clampQ,
    max_def, min_def]

/-- C5: the RebalanceCache never ends a RecalibrationEngine run holding
a rebalance factor equal to 1: when the compounded factor equals 1 the
key is deleted (never stored), and in particular an organization with
no prior factor observed exactly at its target rate (achieved rate
equal to B, with valid factor bounds around 1) ends the run with no
persisted key.  Over exact rationals the float tolerance of the spec is
exact equality. -/
theorem rebalanceCache_never_holds_one :
    (∀ (prev : Option ℚ) (B keep dropped fmin fmax : ℚ),
       RecalibrationEngine.run prev B keep dropped fmin fmax ≠ some 1) ∧
    (∀ (B keep dropped fmin fmax : ℚ),
       keep + dropped ≠ 0 → keep / (keep + dropped) = B → B ≠ 0 →
       fmin ≤ 1 → 1 ≤ fmax →
       RecalibrationEngine.run none B keep dropped fmin fmax = none) := by
  constructor
  · intro prev B keep dropped fmin fmax
    unfold RecalibrationEngine.run
    split_ifs with h
    · exact fun hc => Option.noConfusion hc
    · intro hc
      exact h (Option.some.inj hc)
  · intro B keep dropped fmin fmax hnz hA hB0 hlo hhi
    have hadj : RecalibrationEngine.adjustedFactor ((none : Option ℚ).getD 1)
        B keep dropped fmin fmax = 1 := by
      unfold RecalibrationEngine.adjustedFactor clampQ
      rw [if_neg hnz, hA, div_self hB0, min_eq_left hhi, max_eq_right hlo]
      simp
    unfold RecalibrationEngine.run
    rw [hadj]
    simp

/-- C5 witness: an organization with keep = 20, drop = 80 against
B = 1/5 (achieved exactly at target) and bounds [1/10, 10] persists
nothing. -/
theorem rebalanceCache_never_holds_one_witness :
    ((20:ℚ) + 80 ≠ 0) ∧ ((20:ℚ) / (20 + 80) = 1/5) ∧ ((1/5 : ℚ) ≠ 0) ∧
    ((1/10 : ℚ) ≤ 1) ∧ ((1:ℚ) ≤ 10) ∧
    RecalibrationEngine.run none (1/5) 20 80 (1/10) 10 = none :=
  ⟨by norm_num, by norm_num, by norm_num, by norm_num, by norm_num,
    rebalanceCache_never_holds_one.2 (1/5) 20 80 (1/10) 10 (by norm_num)
      (by norm_num) (by norm_num) (by norm_num) (by norm_num)⟩

/-- C4: provided the pass-through static rules and the rate rules carry
no factor-type sampling value (in the engine they are sampleRate rules),
the compiled rule list contains a factor-type rule iff a non-default
factor is persisted for the organization; when a factor f ≠ 1 is
persisted the compiled list is exactly the other rules with the single
rule ⟨id 1004, trace, always-true, factor f⟩ appended last, and when
nothing (or the default) is persisted the list contains no factor-type
rule at all — not a factor-1 placeholder. -/
theorem ruleCompiler_factor_rule (staticRules rateRules : List Rule)
    (persisted : Option ℚ) (base_sample_rate : ℚ)
    (hs : ∀ r ∈ staticRules, r.isFactor = false)
    (hr : ∀ r ∈ rateRules, r.isFactor = false) :
    ((∃ r ∈ RuleCompiler.compile staticRules rateRules persisted base_sample_rate,
        r.isFactor = true) ↔ ∃ f, persisted = some f ∧ f ≠ 1) ∧
    (persisted = none →
      RuleCompiler.compile staticRules rateRules persisted base_sample_rate =
        staticRules ++ rateRules) ∧
    (∀ f, persisted = some f → f ≠ 1 →
      RuleCompiler.compile staticRules rateRules persisted base_sample_rate =
        staticRules ++ rateRules ++ [factorRule f] ∧
      (RuleCompiler.compile staticRules rateRules persisted base_sample_rate).filter
          Rule.isFactor = [factorRule f]) := by
  have hgen_none : RecalibrationBias.generateRules none base_sample_rate = [] := by
    simp [RecalibrationBias.generateRules]
  have hgen_some : ∀ f : ℚ, f ≠ 1 →
      RecalibrationBias.generateRules (some f) base_sample_rate = [factorRule f] := by
    intro f hf
    simp [RecalibrationBias.generateRules, hf]
  have hfac : ∀ f : ℚ, (factorRule f).isFactor = true := fun f => rfl
  refine ⟨?_, ?_, ?_⟩
  · constructor
    · rintro ⟨r, hrc, hrf⟩
      rcases List.mem_append.1 hrc with hin | hin2
      · rcases List.mem_append.1 hin with h1 | h1
        · exact absurd hrf (by simp [hs r h1])
        · exact absurd hrf (by simp [hr r h1])
      match hp : persisted with
      | none =>
        rw [hgen_none] at hin2
        exact absurd hin2 (List.not_mem_nil r)
      | some f =>
        by_cases hf : f = 1
        · rw [hf] at hin2
          have : RecalibrationBias.generateRules (some (1:ℚ)) base_sample_rate = [] := by
            simp [RecalibrationBias.generateRules]
          rw [this] at hin2
          exact absurd hin2 (List.not_mem_nil r)
        · exact ⟨f, rfl, hf⟩
    · rintro ⟨f, hp, hf⟩
      refine ⟨factorRule f, ?_, hfac f⟩
      apply List.mem_append.2
      right
      rw [hp, hgen_some f hf]
      exact List.mem_singleton.2 rfl
  · intro hp
    rw [RuleCompiler.compile, hp, hgen_none, List.append_nil]
  · intro f hp hf
    have hsf : staticRules.filter Rule.isFactor = [] :=
      List.filter_eq_nil_iff.2 (fun a ha => by simp [hs a ha])
    have hrf : rateRules.filter Rule.isFactor = [] :=
      List.filter_eq_nil_iff.2 (fun a ha => by simp [hr a ha])
    constructor
    · rw [RuleCompiler.compile, hp, hgen_some f hf]
    · rw [RuleCompiler.compile, hp, hgen_some f hf, List.filter_append,
        List.filter_append, hsf, hrf]
      simp [List.filter, hfac f]

/-- C4 witness: with one non-factor sampleRate rule, no static rules, a
persisted factor of 2 and base rate 1/2, the compiled list is the rate
rule followed by the id-1004 factor-2 rule. -/
theorem ruleCompiler_factor_rule_witness :
    (∀ r ∈ ([] : List Rule), r.isFactor = false) ∧
    (∀ r ∈ [Rule.mk 1000 "trace" (Condition.and []) ⟨"sampleRate", 1/2⟩],
       r.isFactor = false) ∧
    (RuleCompiler.compile []
        [Rule.mk 1000 "trace" (Condition.and []) ⟨"sampleRate", 1/2⟩]
        (some 2) (1/2) =
      [] ++ [Rule.mk 1000 "trace" (Condition.and []) ⟨"sampleRate", 1/2⟩] ++
        [factorRule 2] ∧
      (RuleCompiler.compile []
          [Rule.mk 1000 "trace" (Condition.and []) ⟨"sampleRate", 1/2⟩]
          (some 2) (1/2)).filter Rule.isFactor = [factorRule 2]) :=
  ⟨fun r hr => absurd hr (List.not_mem_nil r),
   fun r hr => by rw [List.mem_singleton.1 hr]; rfl,
   (ruleCompiler_factor_rule []
      [Rule.mk 1000 "trace" (Condition.and []) ⟨"sampleRate", 1/2⟩]
      (some 2) (1/2)
      (fun r hr => absurd hr (List.not_mem_nil r))
      (fun r hr => by rw [List.mem_singleton.1 hr]; rfl)).2.2 2 rfl (by norm_num)⟩

/-- C10: RecalibrationBias.generate_rules is independent of the
base_sample_rate argument supplied by the caller: for any persisted
factor state and any two base rates the emitted rule lists are
identical, so the output depends only on the organization's persisted
recalibration factor. -/
theorem recalibrationBias_ignores_base_rate (persisted : Option ℚ) (b1 b2 : ℚ) :
    RecalibrationBias.generateRules persisted b1 =
      RecalibrationBias.generateRules persisted b2 := rfl

/-- C6: for every per-transaction-name volume table with distinct names
and all tail sizes (each possibly zero), the explicit-large and
explicit-small name sets chosen by TransactionPrioritizer are disjoint,
together contain at most numLarge + numSmall names, and every implicit
(remaining) transaction name is absent from the explicit rate mapping of
any table the prioritizer persists. -/
theorem transactionPrioritizer_explicit_sets (txs : List (String × ℚ))
    (numLarge numSmall : Nat) (hnd : (txs.map Prod.fst).Nodup) :
    List.Disjoint
      ((TransactionPrioritizer.classify txs numLarge numSmall).large.map Prod.fst)
      ((TransactionPrioritizer.classify txs numLarge numSmall).small.map Prod.fst) ∧
    ((TransactionPrioritizer.classify txs numLarge numSmall).large ++
       (TransactionPrioritizer.classify txs numLarge numSmall).small).length ≤
      numLarge + numSmall ∧
    (∀ (B : ℚ) (tbl : TransactionRateTable),
       TransactionPrioritizer.buildTable txs numLarge numSmall B = some tbl →
       ∀ t ∈ (TransactionPrioritizer.classify txs numLarge numSmall).implicit,
         t.1 ∉ tbl.explicitRates.map Prod.fst) := by
  have hperm : List.Perm (txs.insertionSort volLE) txs :=
    List.perm_insertionSort volLE txs
  have hN : ((txs.insertionSort volLE).map Prod.fst).Nodup :=
    ((hperm.map Prod.fst).nodup_iff).2 hnd
  have hsplit : ((txs.insertionSort volLE).map Prod.fst).take numSmall ++
      ((txs.insertionSort volLE).map Prod.fst).drop numSmall =
      (txs.insertionSort volLE).map Prod.fst := List.take_append_drop _ _
  have hparts := List.nodup_append.1 (hsplit ▸ hN)
  have hdisj : List.Disjoint
      (((txs.insertionSort volLE).map Prod.fst).take numSmall)
      (((txs.insertionSort volLE).map Prod.fst).drop numSmall) := hparts.2.2
  have hR : (((txs.insertionSort volLE).map Prod.fst).drop numSmall).reverse.Nodup :=
    List.nodup_reverse.2 hparts.2.1
  have hsplitR : (((txs.insertionSort volLE).map Prod.fst).drop numSmall).reverse.take
        numLarge ++
      (((txs.insertionSort volLE).map Prod.fst).drop numSmall).reverse.drop numLarge =
      (((txs.insertionSort volLE).map Prod.fst).drop numSmall).reverse :=
    List.take_append_drop _ _
  have hpartsR := List.nodup_append.1 (hsplitR ▸ hR)
  have hdisjR : List.Disjoint
      ((((txs.insertionSort volLE).map Prod.fst).drop numSmall).reverse.take numLarge)
      ((((txs.insertionSort volLE).map Prod.fst).drop numSmall).reverse.drop numLarge) :=
    hpartsR.2.2
  have hlargeN :
      (TransactionPrioritizer.classify txs numLarge numSmall).large.map Prod.fst =
      (((txs.insertionSort volLE).map Prod.fst).drop numSmall).reverse.take numLarge := by
    simp [TransactionPrioritizer.classify, List.map_take, List.map_drop, List.map_reverse]
  have hsmallN :
      (TransactionPrioritizer.classify txs numLarge numSmall).small.map Prod.fst =
      ((txs.insertionSort volLE).map Prod.fst).take numSmall := by
    simp [TransactionPrioritizer.classify, List.map_take]
  have himplN :
      (TransactionPrioritizer.classify txs numLarge numSmall).implicit.map Prod.fst =
      (((txs.insertionSort volLE).map Prod.fst).drop numSmall).reverse.drop numLarge := by
    simp [TransactionPrioritizer.classify, List.map_take, List.map_drop, List.map_reverse]
  refine ⟨?_, ?_, ?_⟩
  · rw [hlargeN, hsmallN]
    intro a ha hb
    have haR : a ∈ (((txs.insertionSort volLE).map Prod.fst).drop numSmall).reverse :=
      List.take_subset _ _ ha
    exact hdisj hb (List.mem_reverse.1 haR)
  · rw [List.length_append]
    have h1 : (TransactionPrioritizer.classify txs numLarge numSmall).large.length ≤
        numLarge := by
      simp [TransactionPrioritizer.classify]
    have h2 : (TransactionPrioritizer.classify txs numLarge numSmall).small.length ≤
        numSmall := by
      simp [TransactionPrioritizer.classify]
    omega
  · intro B tbl htbl t ht hmem
    have himpl : t.1 ∈
        (((txs.insertionSort volLE).map Prod.fst).drop numSmall).reverse.drop numLarge := by
      rw [← himplN]
      exact List.mem_map_of_mem Prod.fst ht
    have hexp : tbl.explicitRates =
        ((TransactionPrioritizer.classify txs numLarge numSmall).small ++
          (TransactionPrioritizer.classify txs numLarge numSmall).large).map
          (fun t =>
            (t.1, rateOf (allocate (txs.insertionSort volLE) (B * volumeSum txs)) t.1 B)) := by
      simp only [TransactionPrioritizer.buildTable] at htbl
      split_ifs at htbl with h0 h1
      all_goals first
        | exact Option.noConfusion htbl
        | rw [← Option.some.inj htbl]
    rw [hexp] at hmem
    simp only [List.map_map] at hmem
    have hkeys : t.1 ∈
        ((TransactionPrioritizer.classify txs numLarge numSmall).small ++
          (TransactionPrioritizer.classify txs numLarge numSmall).large).map Prod.fst := by
      simpa using hmem
    rw [List.map_append, List.mem_append, hsmallN, hlargeN] at hkeys
    rcases hkeys with hk | hk
    · have htR : t.1 ∈ (((txs.insertionSort volLE).map Prod.fst).drop numSmall).reverse :=
        List.drop_subset _ _ himpl
      exact hdisj hk (List.mem_reverse.1 htR)
    · exact hdisjR hk himpl

/-- C6 witness: the five transaction names of the repository's test with
one explicit-large and one explicit-small slot have pairwise-distinct
names, and the classification separates them as claimed. -/
theorem transactionPrioritizer_explicit_sets_witness :
    (([("ts1", (1:ℚ)), ("ts2", 100), ("tm3", 1000), ("tl4", 2000),
        ("tl5", 3000)].map Prod.fst).Nodup) ∧
    (List.Disjoint
      ((TransactionPrioritizer.classify
          [("ts1", (1:ℚ)), ("ts2", 100), ("tm3", 1000), ("tl4", 2000), ("tl5", 3000)]
          1 1).large.map Prod.fst)
      ((TransactionPrioritizer.classify
          [("ts1", (1:ℚ)), ("ts2", 100), ("tm3", 1000), ("tl4", 2000), ("tl5", 3000)]
          1 1).small.map Prod.fst) ∧
    ((TransactionPrioritizer.classify
        [("ts1", (1:ℚ)), ("ts2", 100), ("tm3", 1000), ("tl4", 2000), ("tl5", 3000)]
        1 1).large ++
      (TransactionPrioritizer.classify
        [("ts1", (1:ℚ)), ("ts2", 100), ("tm3", 1000), ("tl4", 2000), ("tl5", 3000)]
        1 1).small).length ≤ 1 + 1 ∧
    (∀ (B : ℚ) (tbl : TransactionRateTable),
       TransactionPrioritizer.buildTable
         [("ts1", (1:ℚ)), ("ts2", 100), ("tm3", 1000), ("tl4", 2000), ("tl5", 3000)]
         1 1 B = some tbl →
       ∀ t ∈ (TransactionPrioritizer.classify
           [("ts1", (1:ℚ)), ("ts2", 100), ("tm3", 1000), ("tl4", 2000), ("tl5", 3000)]
           1 1).implicit,
         t.1 ∉ tbl.explicitRates.map Prod.fst)) :=
  ⟨by decide,
   transactionPrioritizer_explicit_sets
     [("ts1", (1:ℚ)), ("ts2", 100), ("tm3", 1000), ("tl4", 2000), ("tl5", 3000)]
     1 1 (by decide)⟩

/-- C7: when no rate table is cached for the organization and project
(the project was skipped or had insufficient data), the resampling-rate
query returns default_rate both as the rate looked up for every
transaction name and as the implicit/global rate; a project with zero
total transaction volume never persists a table in the first place.
All functions involved are total: no error reaches the caller. -/
theorem resamplingRates_default_on_missing
    (cache : Nat → Nat → Option TransactionRateTable)
    (org_id proj_id : Nat) (default_rate : ℚ)
    (h : cache org_id proj_id = none) :
    (∀ name,
       lookupRate
         (get_transactions_resampling_rates cache org_id proj_id default_rate).1 name
         (get_transactions_resampling_rates cache org_id proj_id default_rate).2 =
       default_rate) ∧
    (get_transactions_resampling_rates cache org_id proj_id default_rate).2 =
      default_rate ∧
    (∀ (txs : List (String × ℚ)) (numLarge numSmall : Nat) (B : ℚ),
       volumeSum txs = 0 →
       TransactionPrioritizer.buildTable txs numLarge numSmall B = none) := by
  refine ⟨?_, ?_, ?_⟩
  · intro name
    simp [get_transactions_resampling_rates, h, lookupRate]
  · simp [get_transactions_resampling_rates, h]
  · intro txs numLarge numSmall B h0
    simp [TransactionPrioritizer.buildTable, h0]

/-- C7 witness: an empty cache queried for org 1, project 2 with
default rate 1/10 yields 1/10 everywhere, and a project whose only
transaction has volume 0 persists no table. -/
theorem volumeSum_nonneg {α : Type} (l : List (α × ℚ))
    (h : ∀ p ∈ l, 0 < p.2) : 0 ≤ volumeSum l := by
  unfold volumeSum
  apply List.sum_nonneg
  intro x hx
  obtain ⟨p, hp, he⟩ := List.mem_map.1 hx
  exact he ▸ (h p hp).le

/-- C8: every sample rate emitted by the engine lies in [0,1] and every
persisted/emitted factor is strictly positive, given positive observed
volumes, a blended rate B in [0,1], a positive previously persisted
factor and a positive lower factor bound: (1) all ProjectPrioritizer
rates are in [0,1]; (2) all explicit rates and the implicit rate of any
persisted TransactionRateTable are in [0,1] (the implicit rate is
clamped rather than overflowing); (3) any factor persisted by a
RecalibrationEngine run is strictly positive — including when the
achieved rate is zero, where the division by zero yields 0 in ℚ and is
clamped up to fmin rather than raised to the caller. -/
theorem engine_outputs_safe (projects : List (Nat × ℚ)) (txs : List (String × ℚ))
    (numLarge numSmall : Nat) (B : ℚ) (prev : Option ℚ) (keep dropped fmin fmax : ℚ)
    (hv : ∀ p ∈ projects, 0 < p.2) (htx : ∀ t ∈ txs, 0 < t.2)
    (hB0 : 0 ≤ B) (hB1 : B ≤ 1)
    (hprev : 0 < prev.getD 1) (hfmin : 0 < fmin) :
    (∀ pr ∈ ProjectPrioritizer.run projects B, 0 ≤ pr.2 ∧ pr.2 ≤ 1) ∧
    (∀ tbl : TransactionRateTable,
       TransactionPrioritizer.buildTable txs numLarge numSmall B = some tbl →
       (∀ e ∈ tbl.explicitRates, 0 ≤ e.2 ∧ e.2 ≤ 1) ∧
       0 ≤ tbl.implicitRate ∧ tbl.implicitRate ≤ 1) ∧
    (∀ f, RecalibrationEngine.run prev B keep dropped fmin fmax = some f → 0 < f) := by
  refine ⟨?_, ?_, ?_⟩
  · intro pr hpr
    have hperm : List.Perm (projects.insertionSort volLE) projects :=
      List.perm_insertionSort volLE projects
    have hv2 : ∀ p ∈ projects.insertionSort volLE, 0 < p.2 :=
      fun p hp => hv p (hperm.subset hp)
    exact allocate_rates_bounded _ _ hv2
      (mul_nonneg hB0 (volumeSum_nonneg projects hv)) pr hpr
  · intro tbl htbl
    have hpermt : List.Perm (txs.insertionSort volLE) txs :=
      List.perm_insertionSort volLE txs
    have htx2 : ∀ t ∈ txs.insertionSort volLE, 0 < t.2 :=
      fun t ht => htx t (hpermt.subset ht)
    have hbud : 0 ≤ B * volumeSum txs := mul_nonneg hB0 (volumeSum_nonneg txs htx)
    have hrate : ∀ name : String,
        0 ≤ rateOf (allocate (txs.insertionSort volLE) (B * volumeSum txs)) name B ∧
        rateOf (allocate (txs.insertionSort volLE) (B * volumeSum txs)) name B ≤ 1 := by
      intro name
      cases hfe : (allocate (txs.insertionSort volLE) (B * volumeSum txs)).find?
          (fun e => e.1.1 == name) with
      | none => simp only [rateOf, hfe]; exact ⟨hB0, hB1⟩
      | some e =>
        simp only [rateOf, hfe]
        exact allocate_rates_bounded _ _ htx2 hbud e (List.mem_of_find?_eq_some hfe)
    constructor
    · intro e he
      have hexp : tbl.explicitRates =
          ((TransactionPrioritizer.classify txs numLarge numSmall).small ++
            (TransactionPrioritizer.classify txs numLarge numSmall).large).map
            (fun t =>
              (t.1,
                rateOf (allocate (txs.insertionSort volLE) (B * volumeSum txs)) t.1 B)) := by
        simp only [TransactionPrioritizer.buildTable] at htbl
        split_ifs at htbl with h0 h1
        all_goals first
          | exact Option.noConfusion htbl
          | rw [← Option.some.inj htbl]
      rw [hexp] at he
      obtain ⟨t, ht, he2⟩ := List.mem_map.1 he
      rw [← he2]
      exact hrate t.1
    · simp only [TransactionPrioritizer.buildTable] at htbl
      split_ifs at htbl with h0 h1
      all_goals first
        | exact Option.noConfusion htbl
        | (rw [← Option.some.inj htbl]; exact ⟨hB0, hB1⟩)
        | (rw [← Option.some.inj htbl];
           exact ⟨le_max_left 0 _, max_le (by norm_num) (min_le_right _ 1)⟩)
  · intro f hf
    unfold RecalibrationEngine.run at hf
    split_ifs at hf with h1
    all_goals first
      | exact Option.noConfusion hf
      | (rw [← Option.some.inj hf];
         unfold RecalibrationEngine.adjustedFactor clampQ;
         exact mul_pos hprev (lt_of_lt_of_le hfmin (le_max_left fmin _)))

/-- C8 witness: the concrete projects, transactions and recalibration
inputs of the repository's tests satisfy the hypotheses, and all three
safety conclusions hold for them. -/
theorem engine_outputs_safe_witness :
    (∀ p ∈ [((1:Nat), (9:ℚ)), (2, 7), (3, 3), (4, 1)], 0 < p.2) ∧
    (∀ t ∈ [("ts1", (1:ℚ)), ("tl5", 3000)], 0 < t.2) ∧
    ((0:ℚ) ≤ 1/4) ∧ ((1/4:ℚ) ≤ 1) ∧
    (0 < (none : Option ℚ).getD 1) ∧ ((0:ℚ) < 1/10) ∧
    ((∀ pr ∈ ProjectPrioritizer.run [(1, 9), (2, 7), (3, 3), (4, 1)] (1/4),
        0 ≤ pr.2 ∧ pr.2 ≤ 1) ∧
     (∀ tbl : TransactionRateTable,
        TransactionPrioritizer.buildTable [("ts1", (1:ℚ)), ("tl5", 3000)] 1 1 (1/4) =
          some tbl →
        (∀ e ∈ tbl.explicitRates, 0 ≤ e.2 ∧ e.2 ≤ 1) ∧
        0 ≤ tbl.implicitRate ∧ tbl.implicitRate ≤ 1) ∧
     (∀ f, RecalibrationEngine.run none (1/4) 10 90 (1/10) 10 = some f → 0 < f)) :=
  ⟨by intro p hp; fin_cases hp <;> norm_num,
   by intro t ht; fin_cases ht <;> norm_num,
   by norm_num, by norm_num, by norm_num, by norm_num,
   engine_outputs_safe [(1, 9), (2, 7), (3, 3), (4, 1)]
     [("ts1", (1:ℚ)), ("tl5", 3000)] 1 1 (1/4) none 10 90 (1/10) 10
     (by intro p hp; fin_cases hp <;> norm_num)
     (by intro t ht; fin_cases ht <;> norm_num)
     (by norm_num) (by norm_num) (by norm_num) (by norm_num)⟩

theorem resamplingRates_default_on_missing_witness :
    ((fun _ _ => none : Nat → Nat → Option TransactionRateTable) 1 2 = none) ∧
    (∀ name,
       lookupRate
         (get_transactions_resampling_rates (fun _ _ => none) 1 2 (1/10)).1 name
         (get_transactions_resampling_rates (fun _ _ => none) 1 2 (1/10)).2 = 1/10) ∧
    (get_transactions_resampling_rates (fun _ _ => none) 1 2 (1/10)).2 = 1/10 ∧
    (∀ (txs : List (String × ℚ)) (numLarge numSmall : Nat) (B : ℚ),
       volumeSum txs = 0 →
       TransactionPrioritizer.buildTable txs numLarge numSmall B = none) :=
  ⟨rfl, resamplingRates_default_on_missing (fun _ _ => none) 1 2 (1/10) rfl⟩

end DynamicSampling
